import Mathlib

/-!
# Verification of the TinyDB in-memory core (arena, node, skiplist)

Shallow embedding of the repository's `src/util/byte.rs`, `src/util/slice.rs`,
`src/mem/arena.rs` and `src/mem/skiplist.rs`, together with theorems settling
the specification claims about them.

Conventions used throughout:
* byte strings are `List Nat` (each entry a byte value);
* raw pointers become `Option Nat` (`none` = null, `some i` = index of the
  node in the store);
* machine-integer subtraction that the Rust code performs on `usize` is
  modelled with an explicit underflow check (debug builds of the source trap
  on underflow), never with truncating `Nat` subtraction;
* code that can trap (panics, null dereferences, out-of-bounds indexing)
  returns `Except Panic _` or threads the partially-mutated state next to an
  `Option Panic`;
* unbounded `loop { .. }` constructs become fueled structural recursions; the
  top-level wrappers pass a fuel that is proved sufficient on well-formed
  states.
-/

namespace TinyDB

/-- Kinds of abnormal termination the embedded code can exhibit. -/
inductive Panic where
  /-- the fueled model ran out of fuel (never happens on well-formed states) -/
  | outOfFuel
  /-- dereference of a null raw pointer -/
  | nullDeref
  /-- dereference of a pointer that denotes no live node -/
  | invalidNode
  /-- the `invarint!` duplicate-key check in `SkipList::insert` fired -/
  | duplicateKey
  /-- the `invarint!` height-bound check in `Node::get_next`/`set_next` fired -/
  | heightInvariant
  /-- `usize` subtraction underflow (debug-build arithmetic trap) -/
  | subtractOverflow
  /-- slice/array indexing out of bounds -/
  | indexOutOfBounds
  /-- the out-of-range panic in `AggressiveArena::get` / `Slice::index` -/
  | outOfRange
  /-- read through a pointer that does not cover the requested byte -/
  | invalidRead
  deriving DecidableEq, Repr

deriving instance DecidableEq for Except

/-! ## `src/util/byte.rs`: byte-string comparison

`compare(b1, b2)` special-cases empty inputs and otherwise runs `memcmp` over
the first `min(len1, len2)` bytes, breaking ties by length. -/

/-- Model of `memcmp(b1, b2, n)`: three-way comparison of the first `n` bytes
of the two buffers (the source only calls it with `n ≤ min` of the lengths). -/
def memcmpBytes : List Nat → List Nat → Nat → Ordering
  | _, _, 0 => .eq
  | a :: as, b :: bs, n + 1 =>
    if a < b then .lt else if b < a then .gt else memcmpBytes as bs n
  | _, _, _ + 1 => .eq

/-- Model of `byte::compare` from `src/util/byte.rs`: empty-aware lexicographic
comparison (empty sorts first; `memcmp` over the common length, then the
shorter byte string sorts first). -/
def byteCompare (b1 b2 : List Nat) : Ordering :=
  if b1.isEmpty && b2.isEmpty then .eq
  else if b1.isEmpty then .lt
  else if b2.isEmpty then .gt
  else
    let n := min b1.length b2.length
    match memcmpBytes b1 b2 n with
    | .gt => .gt
    | .eq =>
      if b1.length < b2.length then .lt
      else if b1.length = b2.length then .eq
      else .gt
    | .lt => .lt

/-- Plain lexicographic three-way comparison of byte strings; reference
ordering used to reason about `byteCompare`. -/
def lexCompare : List Nat → List Nat → Ordering
  | [], [] => .eq
  | [], _ :: _ => .lt
  | _ :: _, [] => .gt
  | a :: as, b :: bs =>
    if a < b then .lt else if b < a then .gt else lexCompare as bs

theorem lexCompare_nil_left : ∀ b : List Nat, b ≠ [] → lexCompare [] b = .lt
  | _ :: _, _ => rfl

theorem memcmpBytes_zero (a b : List Nat) : memcmpBytes a b 0 = .eq := by
  cases a <;> cases b <;> rfl

/-- On the common length, `memcmp` followed by the length tie-break computes
exactly the lexicographic comparison. -/
theorem byteCompare_eq_lexCompare (b1 b2 : List Nat) :
    byteCompare b1 b2 = lexCompare b1 b2 := by
  induction b1 generalizing b2 with
  | nil =>
    cases b2 with
    | nil => rfl
    | cons b bs => rfl
  | cons a as ih =>
    cases b2 with
    | nil => rfl
    | cons b bs =>
      have hlen : min (a :: as).length (b :: bs).length =
          min as.length bs.length + 1 := by
        simp only [List.length_cons]
        omega
      unfold byteCompare
      simp only [List.isEmpty_cons, Bool.and_self, Bool.false_and, if_false,
        Bool.false_eq_true, hlen, memcmpBytes]
      by_cases hab : a < b
      · simp [lexCompare, hab]
      · by_cases hba : b < a
        · simp [lexCompare, hab, hba]
        · simp only [if_neg hab, if_neg hba]
          have hrec := ih bs
          unfold byteCompare at hrec
          simp only [lexCompare, if_neg hab, if_neg hba]
          cases has : as with
          | nil =>
            cases hbs : bs with
            | nil => simp [memcmpBytes_zero, lexCompare]
            | cons c cs => simp [memcmpBytes_zero, lexCompare]
          | cons c cs =>
            cases hbs : bs with
            | nil =>
              simp [memcmpBytes_zero, lexCompare]
            | cons d ds =>
              rw [has, hbs] at hrec
              simp only [List.isEmpty_cons, Bool.and_self, Bool.false_and,
                Bool.false_eq_true, if_false] at hrec
              simpa [List.length_cons] using hrec

theorem lexCompare_self : ∀ a : List Nat, lexCompare a a = .eq
  | [] => rfl
  | a :: as => by simp [lexCompare, lexCompare_self as]

theorem lexCompare_eq_iff : ∀ a b : List Nat, lexCompare a b = .eq ↔ a = b
  | [], [] => by simp [lexCompare]
  | [], _ :: _ => by simp [lexCompare]
  | _ :: _, [] => by simp [lexCompare]
  | a :: as, b :: bs => by
    by_cases hab : a < b
    · simp [lexCompare, hab]
      omega
    · by_cases hba : b < a
      · simp [lexCompare, hab, hba]
        omega
      · have hab' : a = b := by omega
        simp [lexCompare, hab, hba, hab', lexCompare_eq_iff as bs]

theorem lexCompare_swap : ∀ a b : List Nat, lexCompare b a = (lexCompare a b).swap
  | [], [] => rfl
  | [], _ :: _ => rfl
  | _ :: _, [] => rfl
  | a :: as, b :: bs => by
    by_cases hab : a < b
    · have : ¬ b < a := by omega
      simp [lexCompare, hab, this, Ordering.swap]
    · by_cases hba : b < a
      · simp [lexCompare, hab, hba, Ordering.swap]
      · simp [lexCompare, hab, hba, lexCompare_swap as bs]

theorem lexCompare_lt_trans :
    ∀ a b c : List Nat, lexCompare a b = .lt → lexCompare b c = .lt →
      lexCompare a c = .lt
  | [], [], _, hab, _ => by simp [lexCompare] at hab
  | [], _ :: _, [], _, hbc => by simp [lexCompare] at hbc
  | [], _ :: _, _ :: _, _, _ => rfl
  | _ :: _, [], _, hab, _ => by simp [lexCompare] at hab
  | _ :: _, _ :: _, [], _, hbc => by simp [lexCompare] at hbc
  | a :: as, b :: bs, c :: cs, hab, hbc => by
    simp only [lexCompare] at hab hbc ⊢
    by_cases hab1 : a < b
    · -- a < b; from hbc, b ≤ c, hence a < c
      by_cases hbc1 : b < c
      · have : a < c := by omega
        simp [this]
      · by_cases hcb : c < b
        · simp [hbc1, hcb] at hbc
        · have : b = c := by omega
          subst this
          simp [hab1]
    · by_cases hba : b < a
      · simp [hab1, hba] at hab
      · have hab' : a = b := by omega
        subst hab'
        by_cases hbc1 : a < c
        · simp [hbc1]
        · by_cases hcb : c < a
          · simp [hbc1, hcb] at hbc
          · simp only [if_neg hab1, if_neg hba] at hab
            simp only [if_neg hbc1, if_neg hcb] at hbc ⊢
            exact lexCompare_lt_trans as bs cs hab hbc

/-! ## `src/util/slice.rs`: the byte-range view

A `Slice` is a raw pointer plus a size.  The model keeps the run of bytes
that are dereferenceable starting at the pointer (`data`, which may be longer
than the view) together with the view size. -/

/-- Model of `Slice`: `data` are the bytes reachable from the slice's data
pointer, `size` is the view length (`size ≤ data.length` for a view into live
storage; the model does not force this, mirroring the unchecked source). -/
structure SliceM where
  data : List Nat
  size : Nat
  deriving DecidableEq, Repr

/-- Model of `Slice::to_slice`: the `size`-byte view itself. -/
def SliceM.toSliceView (s : SliceM) : List Nat := s.data.take s.size

/-- Model of `impl Index<usize> for Slice` (`src/util/slice.rs`): panic when
`index > self.size`, otherwise read the byte at `data + index` (a read at
`index = size` is one byte past the view; if the backing run does not cover
it, the access is an invalid read). -/
def SliceM.index (s : SliceM) (i : Nat) : Except Panic Nat :=
  if i > s.size then .error .outOfRange
  else
    match s.data.get? i with
    | some b => .ok b
    | none => .error .invalidRead

/-! ## `src/mem/arena.rs`: the aggressive arena

`AggressiveArena` owns a fixed-capacity buffer and a monotonically advancing
offset.  `mem` models the whole capacity region (the source leaves it
uninitialized; the model starts it at 0 — no claim depends on the initial
contents because `get` refuses to read at or above `offset`). -/

/-- Constants from `src/mem/skiplist.rs`. -/
def MAX_HEIGHT : Nat := 12

/-- `MAX_NODE_SIZE` as written in `src/mem/skiplist.rs` (the value `10`). -/
def MAX_NODE_SIZE : Nat := 10

/-- `BRANCHING` from `src/mem/skiplist.rs`. -/
def BRANCHING : Nat := 4

/-- `mem::size_of::<*mut u8>()` on the 64-bit targets the source assumes. -/
def ptrSize : Nat := 8

/-- Model of `AggressiveArena`: allocation offset plus the backing buffer
(whose length is the capacity passed to `new`). -/
structure ArenaState where
  offset : Nat
  mem : List Nat
  deriving DecidableEq, Repr

/-- Model of `AggressiveArena::new(cap)`. -/
def arenaNew (cap : Nat) : ArenaState :=
  { offset := 0, mem := List.replicate cap 0 }

/-- Capacity of the arena (`AggressiveArena::size`, i.e. `mem.capacity()`). -/
def ArenaState.cap (a : ArenaState) : Nat := a.mem.length

/-- Byte-wise store of `data` into the buffer starting at `pos`.  A store past
the end of the buffer is dropped by `List.set`; in the source that same store
scribbles over unowned memory. -/
def writeList : List Nat → Nat → List Nat → List Nat
  | mem, _, [] => mem
  | mem, pos, b :: bs => writeList (mem.set pos b) (pos + 1) bs

/-- Model of `AggressiveArena::alloc_bytes`: fetch-add the offset by the
payload length, copy the payload in, and return the old offset truncated to
`u32`.  The source performs no capacity check and cannot fail. -/
def allocBytes (a : ArenaState) (data : List Nat) : Nat × ArenaState :=
  let start := a.offset
  (start % 2 ^ 32,
    { offset := start + data.length, mem := writeList a.mem start data })

/-- Model of `AggressiveArena::get(start, count)`: panic when the requested
range reaches at or above the current offset, otherwise read the bytes. -/
def arenaGet (a : ArenaState) (start count : Nat) : Except Panic (List Nat) :=
  if start + count > a.offset then .error .outOfRange
  else .ok ((List.range count).map fun i => a.mem.getD (start + i) 0)

/-- The node-region size computed by `AggressiveArena::alloc_node`:
`MAX_NODE_SIZE - (MAX_HEIGHT - height) * ptr_size` on `usize`.  Debug builds
of the source trap when the subtraction underflows, which the model makes
explicit. -/
def usedNodeSize (height : Nat) : Except Panic Nat :=
  if MAX_NODE_SIZE < (MAX_HEIGHT - height) * ptrSize then .error .subtractOverflow
  else .ok (MAX_NODE_SIZE - (MAX_HEIGHT - height) * ptrSize)

/-- Model of `AggressiveArena::alloc_node(height)`: compute the region size
(line 62, which already traps for heights up to 10), fetch-add the offset,
then split the region at `used_node_size - height * ptr_size` (line 70).
That second `usize` subtraction underflows at the remaining heights 11 and
12 (`2 - 88`, `10 - 96`): debug builds trap on the subtraction and release
builds feed the wrapped value to `split_at_mut`, which panics because the
split point exceeds the slice length — so `alloc_node` panics at every
height the skiplist uses.  The raw-pointer writes of the `Node` struct
fields behind the split are a `repr(C)` layout concern the byte model does
not replay; the record layer below carries the header fields instead. -/
def allocNode (a : ArenaState) (height : Nat) : Except Panic (Nat × ArenaState) :=
  match usedNodeSize height with
  | .error e => .error e
  | .ok sz =>
    -- `fetch_add` happens before the unsafe block, so the offset is already
    -- advanced when line 70 traps; the panic discards the handle either way.
    if sz < height * ptrSize then .error .subtractOverflow
    else .ok (a.offset, { a with offset := a.offset + sz })

/-- The header fields of a `Node` (`src/mem/skiplist.rs`), as a record. -/
structure NodeRec where
  keyOffset : Nat
  keySize : Nat
  valueOffset : Nat
  valueSize : Nat
  height : Nat
  deriving DecidableEq, Repr

/-- Model of `Node::new(key, value, height, arena)` at the arena level:
`alloc_node(height)`, then `alloc_bytes(key)` and `alloc_bytes(value)`,
recording sizes and returned offsets in the header. -/
def nodeNewArena (key value : List Nat) (height : Nat) (a : ArenaState) :
    Except Panic (NodeRec × ArenaState) :=
  match allocNode a height with
  | .error e => .error e
  | .ok (_, a1) =>
    let ks := key.length
    let (ko, a2) := allocBytes a1 key
    let vs := value.length
    let (vo, a3) := allocBytes a2 value
    .ok ({ keyOffset := ko, keySize := ks, valueOffset := vo, valueSize := vs,
           height := height }, a3)

/-- Model of `Node::key(arena)`: resolve the key descriptor through the arena. -/
def nodeKeyArena (n : NodeRec) (a : ArenaState) : Except Panic (List Nat) :=
  arenaGet a n.keyOffset n.keySize

/-- Model of `Node::value(arena)`: resolve the value descriptor. -/
def nodeValueArena (n : NodeRec) (a : ArenaState) : Except Panic (List Nat) :=
  arenaGet a n.valueOffset n.valueSize

/-! ## `src/mem/skiplist.rs`: nodes and the skiplist

The record layer: a `SNode` carries the fields of `Node` with its key/value
payloads held directly (their byte-exact trip through the arena is the arena
layer above), and `next` holds the `height` successor pointers.  A `SkipState`
is the node store (index 0 is the head sentinel) plus the atomic
`max_height`. -/

/-- Model of `Node` at the store level.  A head sentinel carries `key = []`
(its untouched descriptor resolves through `get(0, 0)`). -/
structure SNode where
  key : List Nat
  value : List Nat
  height : Nat
  next : List (Option Nat)
  deriving DecidableEq, Repr

/-- Model of the mutable state of a `SkipList`: the store of nodes ever
allocated (index 0 = head) and the current `max_height`. -/
structure SkipState where
  nodes : List SNode
  maxHeight : Nat
  deriving DecidableEq, Repr

/-- Model of `SkipList::new(arena_cap, cmp)`: create the arena, then
allocate the head sentinel with `alloc_node(MAX_HEIGHT)` — which traps (at
height 12 line 70 computes `split_at_mut(10 - 96)`), so construction never
completes.  The `.ok` branch, which would publish the head and
`max_height = 1`, is dead code; it shows null head successors only because
there is no initialized source memory to mirror. -/
def skipListNewRun (cap : Nat) : Except Panic (SkipState × ArenaState) :=
  match allocNode (arenaNew cap) MAX_HEIGHT with
  | .error e => .error e
  | .ok (_, a1) =>
    .ok ({ nodes := [{ key := [], value := [], height := MAX_HEIGHT,
                       next := List.replicate MAX_HEIGHT none }],
           maxHeight := 1 }, a1)

/-- Key of node `i`, with `[]` for an index that denotes no node (spec-side
reader used in invariants and statements; the executable paths below check
validity explicitly). -/
def keyOfD (st : SkipState) (i : Nat) : List Nat :=
  ((st.nodes.get? i).map SNode.key).getD []

/-- Height of node `i` (0 for an index that denotes no node). -/
def heightOf (st : SkipState) (i : Nat) : Nat :=
  ((st.nodes.get? i).map SNode.height).getD 0

/-- The level-`level` successor pointer of node `i` (spec-side total reader;
only meaningful for `1 ≤ level`). -/
def nextOf (st : SkipState) (i : Nat) (level : Nat) : Option Nat :=
  match st.nodes.get? i with
  | none => none
  | some nd =>
    match nd.next.get? (level - 1) with
    | none => none
    | some p => p

/-- Model of `Node::get_next(height)`: the `invarint!` height-bound check,
then `next_nodes[height - 1]`.  Called with level 0 (as `insert`'s splice
loop does) the `usize` index `0 - 1` underflows, which debug builds trap. -/
def nodeGetNext (st : SkipState) (i : Nat) (level : Nat) :
    Except Panic (Option Nat) :=
  match st.nodes.get? i with
  | none => .error .invalidNode
  | some nd =>
    if ¬ level ≤ nd.height then .error .heightInvariant
    else if level = 0 then .error .subtractOverflow
    else
      match nd.next.get? (level - 1) with
      | some p => .ok p
      | none => .error .indexOutOfBounds

/-- Model of `Node::set_next(height, node)`: same checks, then store. -/
def nodeSetNext (st : SkipState) (i : Nat) (level : Nat) (p : Option Nat) :
    Except Panic SkipState :=
  match st.nodes.get? i with
  | none => .error .invalidNode
  | some nd =>
    if ¬ level ≤ nd.height then .error .heightInvariant
    else if level = 0 then .error .subtractOverflow
    else if level - 1 < nd.next.length then
      .ok { st with nodes := st.nodes.set i { nd with next := nd.next.set (level - 1) p } }
    else .error .indexOutOfBounds

/-- Model of `SkipList::key_is_less_than(key, n)`: `true` for a null pointer,
otherwise `true` exactly when `compare(key, n.key) == Less`. -/
def keyIsLessThan (st : SkipState) (key : List Nat) (n : Option Nat) :
    Except Panic Bool :=
  match n with
  | none => .ok true
  | some m =>
    match st.nodes.get? m with
    | none => .error .invalidNode
    | some nd =>
      match byteCompare key nd.key with
      | .lt => .ok true
      | _ => .ok false

/-- Three-way comparison of node `m`'s key against `key` (the dereference
`(*next).key(arena)` followed by `comparator.compare`), as used by
`find_less_than`. -/
def keyCmpRead (st : SkipState) (m : Nat) (key : List Nat) :
    Except Panic Ordering :=
  match st.nodes.get? m with
  | none => .error .invalidNode
  | some nd => .ok (byteCompare nd.key key)

/-- The loop of `SkipList::find_greater_or_equal`, with fuel for the
unbounded `loop`: walk forward while `!key_is_less_than(key, next)`, record
the predecessor and descend otherwise, returning `next` at level 1. -/
def findGELoop (st : SkipState) (key : List Nat) :
    Nat → Nat → Nat → List (Option Nat) →
      Except Panic (Option Nat × List (Option Nat))
  | 0, _, _, _ => .error .outOfFuel
  | fuel + 1, level, n, prevs =>
    match nodeGetNext st n level with
    | .error e => .error e
    | .ok next =>
      match keyIsLessThan st key next with
      | .error e => .error e
      | .ok true =>
        let prevs' := prevs.set (level - 1) (some n)
        if level = 1 then .ok (next, prevs')
        else findGELoop st key fuel (level - 1) n prevs'
      | .ok false =>
        match next with
        | some m => findGELoop st key fuel level m prevs
        | none => .error .invalidNode   -- unreachable: a null next blocks

/-- Fuel that suffices for every search loop on a well-formed state: one step
per level change plus one per node visited at each level. -/
def walkFuel (st : SkipState) : Nat :=
  (st.maxHeight + 1) * (st.nodes.length + 2)

/-- Model of `SkipList::find_greater_or_equal(key, prev_nodes)`: start at the
head at `max_height`. -/
def findGreaterOrEqual (st : SkipState) (key : List Nat)
    (prevs : List (Option Nat)) : Except Panic (Option Nat × List (Option Nat)) :=
  findGELoop st key (walkFuel st) st.maxHeight 0 prevs

/-- The loop of `SkipList::find_less_than`: blocked when `next` is null or
`compare(next.key, key) != Less`; at level 1 return the current node. -/
def findLTLoop (st : SkipState) (key : List Nat) :
    Nat → Nat → Nat → Except Panic Nat
  | 0, _, _ => .error .outOfFuel
  | fuel + 1, level, n =>
    match nodeGetNext st n level with
    | .error e => .error e
    | .ok none =>
      if level = 1 then .ok n else findLTLoop st key fuel (level - 1) n
    | .ok (some m) =>
      match keyCmpRead st m key with
      | .error e => .error e
      | .ok ord =>
        if ord ≠ .lt then
          if level = 1 then .ok n else findLTLoop st key fuel (level - 1) n
        else findLTLoop st key fuel level m

/-- Model of `SkipList::find_less_than(key)`. -/
def findLessThan (st : SkipState) (key : List Nat) : Except Panic Nat :=
  findLTLoop st key (walkFuel st) st.maxHeight 0

/-- The loop of `SkipList::find_last`: advance while a successor exists,
descend otherwise, returning the current node at level 1. -/
def findLastLoop (st : SkipState) : Nat → Nat → Nat → Except Panic Nat
  | 0, _, _ => .error .outOfFuel
  | fuel + 1, level, n =>
    match nodeGetNext st n level with
    | .error e => .error e
    | .ok none =>
      if level = 1 then .ok n else findLastLoop st fuel (level - 1) n
    | .ok (some m) => findLastLoop st fuel level m

/-- Model of `SkipList::find_last()`. -/
def findLast (st : SkipState) : Except Panic Nat :=
  findLastLoop st (walkFuel st) st.maxHeight 0

/-- Model of `rand_height`, with the random stream made explicit: starting
from height 1, while `height < MAX_HEIGHT && sample % BRANCHING == 0`
increment the height.  Fuel `MAX_HEIGHT` is enough for the at most 11
increments plus the final failing test. -/
def randHeightAux (f : Nat → Nat) : Nat → Nat → Nat → Nat
  | 0, _, h => h
  | fuel + 1, i, h =>
    if h < MAX_HEIGHT ∧ f i % BRANCHING = 0 then randHeightAux f fuel (i + 1) (h + 1)
    else h

/-- Model of `rand_height()` driven by the sample stream `f`. -/
def randHeight (f : Nat → Nat) : Nat :=
  randHeightAux f MAX_HEIGHT 0 1

/-- The `for i in max_height..height` loop of `insert` that points the
missing predecessor levels at the head sentinel. -/
def fillHead (prevs : List (Option Nat)) (lo hi : Nat) : List (Option Nat) :=
  (List.range' lo (hi - lo)).foldl (fun p i => p.set i (some 0)) prevs

/-- Model of `Node::new` as called from `insert`, at the store level: the
two `alloc_node` subtractions decide whether allocation traps — line 62
(`usedNodeSize`) for heights up to 10, line 70's
`used_node_size - height * ptr_size` split point for heights 11 and 12 — so
the call traps at every height and the `.ok` branch appending a fresh record
(with `height` successor slots) is dead code; the byte placement of the
payloads lives in the arena layer. -/
def nodeNewStore (st : SkipState) (key value : List Nat) (height : Nat) :
    Except Panic (Nat × SkipState) :=
  match usedNodeSize height with
  | .error e => .error e
  | .ok sz =>
    if sz < height * ptrSize then .error .subtractOverflow
    else
      .ok (st.nodes.length,
        { st with nodes := st.nodes ++
            [{ key := key, value := value, height := height,
               next := List.replicate height none }] })

/-- The splice loop of `insert`, exactly as written: `for i in 0..height`,
at each `i` evaluate `(*(prev[i])).get_next(i)`, store it with
`(*new_node).set_next(i, ..)`, then `(*(prev[i])).set_next(i, new_node)` —
passing the 0-based `i` straight to the 1-based `get_next`/`set_next`.
Returns the state reached when a panic interrupts the loop. -/
def spliceGo (newIdx : Nat) (prevs : List (Option Nat)) :
    Nat → Nat → SkipState → SkipState × Option Panic
  | 0, _, st => (st, none)
  | rem + 1, i, st =>
    match prevs.getD i none with
    | none => (st, some .nullDeref)       -- `(*(prev[i]))` with a null prev
    | some p =>
      match nodeGetNext st p i with
      | .error e => (st, some e)
      | .ok nxt =>
        match nodeSetNext st newIdx i nxt with
        | .error e => (st, some e)
        | .ok st' =>
          match nodeSetNext st' p i newIdx with
          | .error e => (st', some e)
          | .ok st'' => spliceGo newIdx prevs rem (i + 1) st''

/-- Model of `SkipList::insert(key, value)` with the height sampler's random
stream passed in.  Returns the state as left behind together with the panic,
if any, that aborted the call. -/
def insert (st : SkipState) (key value : List Nat) (f : Nat → Nat) :
    SkipState × Option Panic :=
  match findGreaterOrEqual st key (List.replicate MAX_HEIGHT none) with
  | .error e => (st, some e)
  | .ok (node, prevs) =>
    -- `invarint!(&(*node).key(&self.arena) != key, ..)`: dereferences `node`
    -- with no null check before comparing.
    match node with
    | none => (st, some .nullDeref)
    | some m =>
      match st.nodes.get? m with
      | none => (st, some .invalidNode)
      | some nd =>
        if byteCompare nd.key key = .eq then (st, some .duplicateKey)
        else
          let height := randHeight f
          let maxH := st.maxHeight
          let prevs2 := if maxH < height then fillHead prevs maxH height else prevs
          let st1 := if maxH < height then { st with maxHeight := height } else st
          match nodeNewStore st1 key value height with
          | .error e => (st1, some e)
          | .ok (newIdx, st2) => spliceGo newIdx prevs2 height 0 st2

/-! ## Well-formed skiplist states

The search primitives only behave on states whose pointer graph is an honest
skiplist: every level's chain from the head terminates, links go to live
nodes of sufficient height, keys strictly increase along links between
non-sentinel nodes, and every chain is contained in the one below it.  All
ingredients are decidable, so concrete states can discharge `wf` by
`decide`. -/

/-- Fueled traversal of one level's chain starting from pointer `c`;
`none` when the fuel runs out before the chain ends. -/
def chainGo (st : SkipState) (level : Nat) : Nat → Option Nat → Option (List Nat)
  | _, none => some []
  | 0, some _ => none
  | fuel + 1, some i => (chainGo st level fuel (nextOf st i level)).map (i :: ·)

/-- The chain of node indices reachable from the head at `level` (the fuel
`nodes.length + 1` is enough for any terminating chain, since every element
costs one unit). -/
def chainAt (st : SkipState) (level : Nat) : Option (List Nat) :=
  chainGo st level (st.nodes.length + 1) (some 0)

/-- The level-`level` chain as a plain list (`[]` when ill-formed). -/
def chainL (st : SkipState) (level : Nat) : List Nat :=
  (chainAt st level).getD []

/-- Indices of the non-sentinel nodes on the level-1 chain, in chain order. -/
def storedIdx (st : SkipState) : List Nat := (chainL st 1).drop 1

/-- The stored keys, in level-1 chain order. -/
def storedKeys (st : SkipState) : List (List Nat) :=
  (storedIdx st).map (keyOfD st)

/-- Strict key order between two nodes of the store. -/
def keyLt (st : SkipState) (i j : Nat) : Prop :=
  byteCompare (keyOfD st i) (keyOfD st j) = .lt

instance (st : SkipState) (i j : Nat) : Decidable (keyLt st i j) := by
  unfold keyLt; infer_instance

/-- Conditions on one successor pointer: it addresses a live node, of height
at least the link's level, and (for links out of non-sentinel nodes) with a
strictly greater key. -/
def linkOk (st : SkipState) (i level : Nat) : Prop :=
  match nextOf st i level with
  | none => True
  | some j =>
      j < st.nodes.length ∧ level ≤ heightOf st j ∧ (i ≠ 0 → keyLt st i j)

instance (st : SkipState) (i level : Nat) : Decidable (linkOk st i level) := by
  unfold linkOk
  cases nextOf st i level <;> infer_instance

/-- Well-formed skiplist state. -/
def wf (st : SkipState) : Prop :=
  1 ≤ st.maxHeight ∧ st.maxHeight ≤ MAX_HEIGHT ∧
  (st.nodes.get? 0).map SNode.height = some MAX_HEIGHT ∧
  (∀ nd ∈ st.nodes, 1 ≤ nd.height ∧ nd.height ≤ MAX_HEIGHT ∧
    nd.next.length = nd.height) ∧
  (∀ i ∈ List.range st.nodes.length, ∀ level ∈ List.range (MAX_HEIGHT + 1),
    linkOk st i level) ∧
  (∀ level ∈ List.range (MAX_HEIGHT + 1), 1 ≤ level → (chainAt st level).isSome) ∧
  (∀ level ∈ List.range (MAX_HEIGHT + 1), 2 ≤ level →
    ∀ x ∈ chainL st level, x ∈ chainL st (level - 1))

instance (st : SkipState) : Decidable (wf st) := by
  unfold wf; infer_instance

/-! ### Chain traversal lemmas -/

theorem chainGo_none (st : SkipState) (level fuel : Nat) :
    chainGo st level fuel none = some [] := by
  cases fuel <;> rfl

theorem chainGo_succ (st : SkipState) (level fuel i : Nat) :
    chainGo st level (fuel + 1) (some i) =
      (chainGo st level fuel (nextOf st i level)).map (i :: ·) := rfl

/-- A successful traversal contains at most `fuel` elements. -/
theorem chainGo_length {st : SkipState} {level fuel : Nat} {c : Option Nat}
    {L : List Nat} (h : chainGo st level fuel c = some L) : L.length ≤ fuel := by
  induction fuel generalizing c L with
  | zero =>
    cases c with
    | none => rw [chainGo_none] at h; cases h; simp
    | some i => simp [chainGo] at h
  | succ fuel ih =>
    cases c with
    | none => rw [chainGo_none] at h; cases h; simp
    | some i =>
      rw [chainGo_succ] at h
      cases hrec : chainGo st level fuel (nextOf st i level) with
      | none => rw [hrec] at h; simp at h
      | some L' =>
        rw [hrec] at h
        simp only [Option.map] at h
        injection h with h
        subst h
        simpa using ih hrec

/-- More fuel never changes a successful traversal. -/
theorem chainGo_mono {st : SkipState} {level fuel : Nat} {c : Option Nat}
    {L : List Nat} (h : chainGo st level fuel c = some L) :
    chainGo st level (fuel + 1) c = some L := by
  induction fuel generalizing c L with
  | zero =>
    cases c with
    | none => rw [chainGo_none] at h; cases h; exact chainGo_none ..
    | some i => simp [chainGo] at h
  | succ fuel ih =>
    cases c with
    | none => rw [chainGo_none] at h; cases h; exact chainGo_none ..
    | some i =>
      rw [chainGo_succ] at h
      cases hrec : chainGo st level fuel (nextOf st i level) with
      | none => rw [hrec] at h; simp at h
      | some L' =>
        rw [hrec] at h
        rw [chainGo_succ, ih hrec]
        exact h

theorem chainGo_mono_le {st : SkipState} {level : Nat} {c : Option Nat}
    {L : List Nat} {fuel fuel' : Nat} (hle : fuel ≤ fuel')
    (h : chainGo st level fuel c = some L) :
    chainGo st level fuel' c = some L := by
  induction fuel' with
  | zero => cases Nat.le_zero.mp hle; exact h
  | succ f ih =>
    rcases Nat.lt_or_ge fuel (f + 1) with hlt | hge
    · exact chainGo_mono (ih (Nat.lt_succ_iff.mp hlt))
    · cases Nat.le_antisymm hle hge; exact h

/-- Successful traversals from the same start agree, whatever the fuels. -/
theorem chainGo_det {st : SkipState} {level : Nat} {c : Option Nat}
    {fuel fuel' : Nat} {L L' : List Nat}
    (h : chainGo st level fuel c = some L)
    (h' : chainGo st level fuel' c = some L') : L = L' := by
  rcases Nat.le_total fuel fuel' with hle | hle
  · have := chainGo_mono_le hle h
    rw [this] at h'; cases h'; rfl
  · have := chainGo_mono_le hle h'
    rw [this] at h; cases h; rfl

/-- A traversal from a node starts with that node. -/
theorem chainGo_shape {st : SkipState} {level fuel i : Nat} {L : List Nat}
    (h : chainGo st level fuel (some i) = some L) :
    ∃ rest, L = i :: rest ∧
      chainGo st level (fuel - 1) (nextOf st i level) = some rest := by
  cases fuel with
  | zero => simp [chainGo] at h
  | succ fuel =>
    rw [chainGo_succ] at h
    cases hrec : chainGo st level fuel (nextOf st i level) with
    | none => rw [hrec] at h; simp at h
    | some rest =>
      rw [hrec] at h
      simp only [Option.map] at h
      injection h with h
      exact ⟨rest, h.symm, by simpa using hrec⟩

/-- A successful traversal recomputes from any of its members: the member
starts the corresponding suffix, reachable with exactly its length as fuel. -/
theorem chainGo_min {st : SkipState} {level fuel : Nat} {c : Option Nat}
    {L : List Nat} (h : chainGo st level fuel c = some L) :
    chainGo st level L.length c = some L := by
  induction fuel generalizing c L with
  | zero =>
    cases c with
    | none => rw [chainGo_none] at h; cases h; exact chainGo_none ..
    | some i => simp [chainGo] at h
  | succ fuel ih =>
    cases c with
    | none => rw [chainGo_none] at h; cases h; exact chainGo_none ..
    | some i =>
      obtain ⟨rest, rfl, hrest⟩ := chainGo_shape h
      simp only [Nat.add_sub_cancel] at hrest
      rw [List.length_cons, chainGo_succ, ih hrest]
      rfl

theorem chain_suffix_of_mem {st : SkipState} {level fuel i q : Nat}
    {L : List Nat} (h : chainGo st level fuel (some i) = some L) (hq : q ∈ L) :
    ∃ pre rest, L = pre ++ q :: rest ∧
      chainGo st level (rest.length + 1) (some q) = some (q :: rest) := by
  induction fuel generalizing i L with
  | zero => simp [chainGo] at h
  | succ fuel ih =>
    obtain ⟨rest, rfl, hrest⟩ := chainGo_shape h
    simp only [Nat.add_sub_cancel] at hrest
    rcases List.mem_cons.mp hq with rfl | hq'
    · refine ⟨[], rest, by simp, ?_⟩
      have := chainGo_min h
      simpa using this
    · cases hnext : nextOf st i level with
      | none =>
        rw [hnext, chainGo_none] at hrest
        cases hrest; simp at hq'
      | some j =>
        rw [hnext] at hrest
        obtain ⟨pre, rest', hsplit, hgo⟩ := ih hrest hq'
        exact ⟨i :: pre, rest', by simp [hsplit], hgo⟩

/-- Adjacent elements of a traversal are successor-linked. -/
theorem chain_chain' {st : SkipState} {level fuel : Nat} {c : Option Nat}
    {L : List Nat} (h : chainGo st level fuel c = some L) :
    List.Chain' (fun a b => nextOf st a level = some b) L := by
  induction fuel generalizing c L with
  | zero =>
    cases c with
    | none => rw [chainGo_none] at h; cases h; exact List.chain'_nil
    | some i => simp [chainGo] at h
  | succ fuel ih =>
    cases c with
    | none => rw [chainGo_none] at h; cases h; exact List.chain'_nil
    | some i =>
      obtain ⟨rest, rfl, hrest⟩ := chainGo_shape h
      simp only [Nat.add_sub_cancel] at hrest
      cases hnext : nextOf st i level with
      | none =>
        rw [hnext, chainGo_none] at hrest
        cases hrest
        simp
      | some j =>
        rw [hnext] at hrest
        obtain ⟨rest', rfl, _⟩ := chainGo_shape hrest
        exact List.Chain'.cons hnext (ih hrest)

/-! ### Facts extracted from `wf` -/

/-- A node index is walkable at a level: it addresses a live node of height
at least `level` whose successor array has exactly its height. -/
def validAt (st : SkipState) (x level : Nat) : Prop :=
  ∃ nd, st.nodes.get? x = some nd ∧ level ≤ nd.height ∧
    nd.next.length = nd.height

theorem wf_head_valid {st : SkipState} (h : wf st) {level : Nat}
    (hl : level ≤ MAX_HEIGHT) : validAt st 0 level := by
  obtain ⟨-, -, hhead, hnodes, -⟩ := h
  cases h0 : st.nodes.get? 0 with
  | none => rw [h0] at hhead; simp at hhead
  | some hd =>
    rw [h0] at hhead
    simp only [Option.map_some'] at hhead
    have hmem : hd ∈ st.nodes := List.get?_mem h0
    obtain ⟨-, -, hlen⟩ := hnodes hd hmem
    refine ⟨hd, h0, ?_, hlen⟩
    injection hhead with hh
    omega

theorem wf_linkOk {st : SkipState} (h : wf st) {i level : Nat}
    (hi : i < st.nodes.length) (hlevel : level ≤ MAX_HEIGHT) :
    linkOk st i level := by
  obtain ⟨-, -, -, -, hlinks, -⟩ := h
  exact hlinks i (List.mem_range.mpr hi) level
    (List.mem_range.mpr (by omega))

/-- A link target is itself walkable at the link's level. -/
theorem wf_link_target_valid {st : SkipState} (h : wf st) {i level j : Nat}
    (hi : i < st.nodes.length) (hlevel1 : 1 ≤ level) (hlevel : level ≤ MAX_HEIGHT)
    (hnext : nextOf st i level = some j) : validAt st j level := by
  have hok := wf_linkOk h hi hlevel
  unfold linkOk at hok
  rw [hnext] at hok
  obtain ⟨hjlen, hjh, -⟩ := hok
  cases hj : st.nodes.get? j with
  | none =>
    rw [List.get?_eq_none] at hj
    omega
  | some nd =>
    obtain ⟨-, -, hlen⟩ := h.2.2.2.1 nd (List.get?_mem hj)
    refine ⟨nd, hj, ?_, hlen⟩
    unfold heightOf at hjh
    rw [hj] at hjh
    simpa using hjh

theorem validAt_lt_length {st : SkipState} {x level : Nat}
    (h : validAt st x level) : x < st.nodes.length := by
  obtain ⟨nd, hx, -, -⟩ := h
  exact List.get?_eq_some.mp hx |>.1 |> fun hh => by
    rcases List.get?_eq_some.mp hx with ⟨hlt, -⟩; exact hlt

/-- Model of `get_next` agrees with the spec-side reader on walkable nodes. -/
theorem nodeGetNext_ok {st : SkipState} {x level : Nat}
    (hv : validAt st x level) (hl : 1 ≤ level) :
    nodeGetNext st x level = .ok (nextOf st x level) := by
  obtain ⟨nd, hx, hh, hlen⟩ := hv
  have h1 : 1 ≤ nd.height := le_trans hl hh
  unfold nodeGetNext nextOf
  rw [hx]
  simp only [if_neg (by omega : ¬ ¬ level ≤ nd.height),
    if_neg (by omega : ¬ level = 0)]
  cases hg : nd.next.get? (level - 1) with
  | none =>
    rw [List.get?_eq_none] at hg
    omega
  | some p => rfl

/-- `keyCmpRead` agrees with `byteCompare` of the stored keys on live nodes. -/
theorem keyCmpRead_ok {st : SkipState} {m : Nat} (hm : m < st.nodes.length)
    (key : List Nat) :
    keyCmpRead st m key = .ok (byteCompare (keyOfD st m) key) := by
  unfold keyCmpRead keyOfD
  cases hg : st.nodes.get? m with
  | none =>
    rw [List.get?_eq_none] at hg
    omega
  | some nd => rfl

/-- Every member of a chain starting from a walkable node is walkable. -/
theorem chain_mem_valid {st : SkipState} (h : wf st) {level fuel i : Nat}
    {L : List Nat} (hgo : chainGo st level fuel (some i) = some L)
    (hvi : validAt st i level) (hl1 : 1 ≤ level) (hl : level ≤ MAX_HEIGHT) :
    ∀ x ∈ L, validAt st x level := by
  induction fuel generalizing i L with
  | zero => simp [chainGo] at hgo
  | succ fuel ih =>
    obtain ⟨rest, rfl, hrest⟩ := chainGo_shape hgo
    simp only [Nat.add_sub_cancel] at hrest
    intro x hx
    rcases List.mem_cons.mp hx with rfl | hx'
    · exact hvi
    · cases hnext : nextOf st i level with
      | none =>
        rw [hnext, chainGo_none] at hrest
        cases hrest; simp at hx'
      | some j =>
        rw [hnext] at hrest
        have hvj : validAt st j level :=
          wf_link_target_valid h (validAt_lt_length hvi) hl1 hl hnext
        exact ih hrest hvj x hx'

/-- The head does not reappear later in its own chain. -/
theorem zero_not_mem_tail {st : SkipState} {level fuel : Nat} {tail : List Nat}
    (hgo : chainGo st level fuel (some 0) = some (0 :: tail)) : 0 ∉ tail := by
  intro hmem
  obtain ⟨rest0, heq, hrest0⟩ := chainGo_shape hgo
  injection heq with h1 h2
  subst h2
  cases hnext : nextOf st 0 level with
  | none =>
    rw [hnext, chainGo_none] at hrest0
    cases hrest0; simp at hmem
  | some j =>
    rw [hnext] at hrest0
    obtain ⟨pre, rest, hsplit, hgoq⟩ := chain_suffix_of_mem hrest0 hmem
    have hdet := chainGo_det hgoq hgo
    injection hdet with hd1 hd2
    subst hd2
    have := congrArg List.length hsplit
    simp at this
    omega

/-- A successor chain avoiding the sentinel is a strict key chain. -/
theorem chain'_keyLt_of_links {st : SkipState} (h : wf st) {level : Nat}
    (hl : level ≤ MAX_HEIGHT) :
    ∀ l : List Nat, List.Chain' (fun a b => nextOf st a level = some b) l →
      (∀ x ∈ l, x < st.nodes.length) → 0 ∉ l →
      List.Chain' (keyLt st) l
  | [], _, _, _ => List.chain'_nil
  | [_], _, _, _ => by simp
  | a :: b :: l, hch, hlen, h0 => by
    rw [List.chain'_cons] at hch ⊢
    have ha : a < st.nodes.length := hlen a (by simp)
    have hok := wf_linkOk h ha hl
    unfold linkOk at hok
    rw [hch.1] at hok
    refine ⟨hok.2.2 (fun hh => h0 (hh ▸ List.mem_cons_self a _)), ?_⟩
    exact chain'_keyLt_of_links h hl (b :: l) hch.2
      (fun x hx => hlen x (List.mem_cons_of_mem a hx))
      (fun hh => h0 (List.mem_cons_of_mem a hh))

/-- Along the non-sentinel part of a chain, keys strictly increase. -/
theorem chain_tail_pairwise {st : SkipState} (h : wf st) {level fuel : Nat}
    {tail : List Nat} (hgo : chainGo st level fuel (some 0) = some (0 :: tail))
    (hl1 : 1 ≤ level) (hl : level ≤ MAX_HEIGHT)
    (hmemlen : ∀ x ∈ 0 :: tail, x < st.nodes.length) :
    List.Pairwise (keyLt st) tail := by
  have h0 : 0 ∉ tail := zero_not_mem_tail hgo
  have hch : List.Chain' (fun a b => nextOf st a level = some b) (0 :: tail) :=
    chain_chain' hgo
  have hchtail : List.Chain' (fun a b => nextOf st a level = some b) tail :=
    hch.tail
  have hkey : List.Chain' (keyLt st) tail :=
    chain'_keyLt_of_links h hl tail hchtail
      (fun x hx => hmemlen x (List.mem_cons_of_mem 0 hx)) h0
  -- transitivity turns the chain into pairwise sortedness
  have tr : ∀ a b c : Nat, keyLt st a b → keyLt st b c → keyLt st a c := by
    intro a b c hab hbc
    unfold keyLt at hab hbc ⊢
    rw [byteCompare_eq_lexCompare] at hab hbc ⊢
    exact lexCompare_lt_trans _ _ _ hab hbc
  haveI : IsTrans Nat (keyLt st) := ⟨tr⟩
  exact List.chain'_iff_pairwise.mp hkey

/-! ### The walk of `find_less_than` along one level -/

/-- Where the forward walk of `find_less_than` stops when started at `i` with
the chain continuation `rest`: advance onto the next node only while its key
is strictly below the target. -/
def stopAt (st : SkipState) (key : List Nat) : Nat → List Nat → Nat
  | i, [] => i
  | i, j :: rest =>
    if byteCompare (keyOfD st j) key = .lt then stopAt st key j rest else i

theorem stopAt_mem (st : SkipState) (key : List Nat) :
    ∀ (l : List Nat) (i : Nat), stopAt st key i l ∈ i :: l
  | [], i => by simp [stopAt]
  | j :: rest, i => by
    unfold stopAt
    by_cases hj : byteCompare (keyOfD st j) key = .lt
    · rw [if_pos hj]
      have := stopAt_mem st key rest j
      rcases List.mem_cons.mp this with hh | hh
      · simp [hh]
      · simp [List.mem_cons_of_mem, hh]
    · simp [if_neg hj]

theorem stopAt_entrance (st : SkipState) (key : List Nat) :
    ∀ (l : List Nat) (i : Nat),
      stopAt st key i l = i ∨
        (stopAt st key i l ∈ l ∧
          byteCompare (keyOfD st (stopAt st key i l)) key = .lt)
  | [], i => by simp [stopAt]
  | j :: rest, i => by
    unfold stopAt
    by_cases hj : byteCompare (keyOfD st j) key = .lt
    · rw [if_pos hj]
      rcases stopAt_entrance st key rest j with hh | ⟨hmem, hlt⟩
      · right; rw [hh]; exact ⟨by simp, hj⟩
      · right; exact ⟨List.mem_cons_of_mem j hmem, hlt⟩
    · left; rw [if_neg hj]


/-- One unfolding of the `find_less_than` loop. -/
theorem findLTLoop_step (st : SkipState) (key : List Nat)
    (fuel level n : Nat) :
    findLTLoop st key (fuel + 1) level n =
      match nodeGetNext st n level with
      | .error e => .error e
      | .ok none =>
        if level = 1 then .ok n else findLTLoop st key fuel (level - 1) n
      | .ok (some m) =>
        match keyCmpRead st m key with
        | .error e => .error e
        | .ok ord =>
          if ord ≠ .lt then
            if level = 1 then .ok n else findLTLoop st key fuel (level - 1) n
          else findLTLoop st key fuel level m := rfl

/-- `find_less_than` loop step when the successor is null: block. -/
theorem findLTLoop_blocked_none {st : SkipState} {n level : Nat}
    (hv : validAt st n level) (hl1 : 1 ≤ level)
    (hnone : nextOf st n level = none) (key : List Nat) (fuel : Nat) :
    findLTLoop st key (fuel + 1) level n =
      if level = 1 then .ok n else findLTLoop st key fuel (level - 1) n := by
  rw [findLTLoop_step, nodeGetNext_ok hv hl1, hnone]

/-- `find_less_than` loop step when the successor's key is not below the
target: block. -/
theorem findLTLoop_blocked_some {st : SkipState} {n level m : Nat}
    (hv : validAt st n level) (hl1 : 1 ≤ level)
    (hnext : nextOf st n level = some m) (hm : m < st.nodes.length)
    {key : List Nat} (hnlt : ¬ byteCompare (keyOfD st m) key = .lt)
    (fuel : Nat) :
    findLTLoop st key (fuel + 1) level n =
      if level = 1 then .ok n else findLTLoop st key fuel (level - 1) n := by
  rw [findLTLoop_step, nodeGetNext_ok hv hl1, hnext]
  simp only [keyCmpRead_ok hm, ne_eq, hnlt, not_false_eq_true, if_true]

/-- `find_less_than` loop step when the successor's key is below the target:
advance. -/
theorem findLTLoop_advance {st : SkipState} {n level m : Nat}
    (hv : validAt st n level) (hl1 : 1 ≤ level)
    (hnext : nextOf st n level = some m) (hm : m < st.nodes.length)
    {key : List Nat} (hlt : byteCompare (keyOfD st m) key = .lt)
    (fuel : Nat) :
    findLTLoop st key (fuel + 1) level n = findLTLoop st key fuel level m := by
  rw [findLTLoop_step, nodeGetNext_ok hv hl1, hnext]
  simp only [keyCmpRead_ok hm, ne_eq, hlt, not_true_eq_false, if_false]

/-- Walking one level: starting at a walkable node `i` whose level chain
continues as `rest`, the loop advances to `stopAt` and then either returns it
(level 1) or descends with predictable fuel. -/
theorem findLT_walk {st : SkipState} (h : wf st) (key : List Nat)
    {level : Nat} (hl1 : 1 ≤ level) (hl : level ≤ MAX_HEIGHT) :
    ∀ (rest : List Nat) (i : Nat),
      chainGo st level (rest.length + 1) (some i) = some (i :: rest) →
      validAt st i level →
      ∃ a, a ≤ rest.length ∧
        ∀ base,
          findLTLoop st key (base + rest.length + 1) level i =
            if level = 1 then .ok (stopAt st key i rest)
            else findLTLoop st key (base + rest.length - a) (level - 1)
              (stopAt st key i rest)
  | [], i, hgo, hvi => by
    obtain ⟨rest', heq, hnext'⟩ := chainGo_shape hgo
    injection heq with h1 h2
    subst h2
    simp only [List.length_nil, Nat.add_sub_cancel] at hnext'
    have hnone : nextOf st i level = none := by
      cases hn : nextOf st i level with
      | none => rfl
      | some j => rw [hn] at hnext'; simp [chainGo] at hnext'
    refine ⟨0, Nat.le_refl 0, fun base => ?_⟩
    rw [show base + List.length [] + 1 = (base + List.length []) + 1 from rfl,
      findLTLoop_blocked_none hvi hl1 hnone]
    simp [stopAt]
  | j :: rest', i, hgo, hvi => by
    obtain ⟨rr, heq, hnext'⟩ := chainGo_shape hgo
    injection heq with h1 h2
    subst h2
    simp only [List.length_cons, Nat.add_sub_cancel] at hnext'
    have hnext : nextOf st i level = some j := by
      cases hn : nextOf st i level with
      | none => rw [hn, chainGo_none] at hnext'; simp at hnext'
      | some j' =>
        rw [hn] at hnext'
        obtain ⟨rest'', heq2, -⟩ := chainGo_shape hnext'
        injection heq2 with h3 h4
        rw [h3]
    rw [hnext] at hnext'
    have hvj : validAt st j level :=
      wf_link_target_valid h (validAt_lt_length hvi) hl1 hl hnext
    have hjlen : j < st.nodes.length := validAt_lt_length hvj
    by_cases hjlt : byteCompare (keyOfD st j) key = .lt
    · -- the walk advances onto j
      obtain ⟨a', ha', hIH⟩ := findLT_walk h key hl1 hl rest' j hnext' hvj
      refine ⟨a' + 1, by simp only [List.length_cons]; omega, fun base => ?_⟩
      rw [show base + (j :: rest').length + 1 = (base + rest'.length + 1) + 1
          from by simp only [List.length_cons]; omega,
        findLTLoop_advance hvi hl1 hnext hjlen hjlt, hIH base]
      have hfuel : base + rest'.length - a' =
          base + (j :: rest').length - (a' + 1) := by
        simp only [List.length_cons]; omega
      have hstop : stopAt st key i (j :: rest') = stopAt st key j rest' := by
        simp only [stopAt, if_pos hjlt]
      rw [hfuel, hstop]
    · -- blocked at i
      refine ⟨0, Nat.zero_le _, fun base => ?_⟩
      rw [show base + (j :: rest').length + 1 = (base + (j :: rest').length) + 1
          from rfl,
        findLTLoop_blocked_some hvi hl1 hnext hjlen hjlt]
      have hstop : stopAt st key i (j :: rest') = i := by
        simp only [stopAt, if_neg hjlt]
      rw [hstop]
      simp only [Nat.sub_zero]

/-! ### Descending through the levels -/

theorem wf_chain_tail {st : SkipState} (h : wf st) {level : Nat}
    (hl1 : 1 ≤ level) (hl : level ≤ MAX_HEIGHT) :
    ∃ tail, chainAt st level = some (0 :: tail) ∧
      chainGo st level (st.nodes.length + 1) (some 0) = some (0 :: tail) ∧
      (∀ x ∈ 0 :: tail, validAt st x level) ∧
      (0 :: tail).length ≤ st.nodes.length + 1 := by
  have hsome := h.2.2.2.2.2.1 level (List.mem_range.mpr (by unfold MAX_HEIGHT at hl ⊢; omega)) hl1
  cases hat : chainAt st level with
  | none => rw [hat] at hsome; simp at hsome
  | some L =>
    have hgo : chainGo st level (st.nodes.length + 1) (some 0) = some L := hat
    obtain ⟨tail, rfl, -⟩ := chainGo_shape hgo
    exact ⟨tail, rfl, hgo,
      chain_mem_valid h hgo (wf_head_valid h hl) hl1 hl,
      chainGo_length hgo⟩

theorem wf_chain_subset {st : SkipState} (h : wf st) {level : Nat}
    (hl2 : 2 ≤ level) (hl : level ≤ MAX_HEIGHT) :
    ∀ x ∈ chainL st level, x ∈ chainL st (level - 1) :=
  h.2.2.2.2.2.2 level (List.mem_range.mpr (by unfold MAX_HEIGHT at hl ⊢; omega)) hl2

/-- Entering a walk anywhere inside a prefix of nodes all below the target
lands at the same stop node. -/
theorem stopAt_through (st : SkipState) (key : List Nat) (p : Nat)
    (rest : List Nat) (hplt : byteCompare (keyOfD st p) key = .lt) :
    ∀ (front : List Nat) (i : Nat),
      (∀ x ∈ front, byteCompare (keyOfD st x) key = .lt) →
      stopAt st key i (front ++ p :: rest) = stopAt st key p rest
  | [], i, _ => by simp only [List.nil_append, stopAt, if_pos hplt]
  | x :: front', i, hfront => by
    simp only [List.cons_append, stopAt]
    rw [if_pos (hfront x (List.mem_cons_self x front'))]
    exact stopAt_through st key p rest hplt front' x
      (fun y hy => hfront y (List.mem_cons_of_mem x hy))

/-- The walk result does not depend on the entry point: entering a sorted
chain anywhere at or before the target gives the same stop node as entering
at the head. -/
theorem stopAt_suffix_eq {st : SkipState} (key : List Nat)
    {tail pre rest : List Nat} {p : Nat}
    (hpw : List.Pairwise (keyLt st) tail) (h0 : 0 ∉ tail)
    (hsplit : 0 :: tail = pre ++ p :: rest)
    (hent : p = 0 ∨ byteCompare (keyOfD st p) key = .lt) :
    stopAt st key p rest = stopAt st key 0 tail := by
  cases pre with
  | nil =>
    simp only [List.nil_append] at hsplit
    injection hsplit with hp ht
    rw [hp, ht]
  | cons q pre' =>
    simp only [List.cons_append] at hsplit
    injection hsplit with hq ht
    -- p occurs inside the tail, so it is not the sentinel
    have hpmem : p ∈ tail := by
      rw [ht]; exact List.mem_append_right _ (List.mem_cons_self p rest)
    have hpne : p ≠ 0 := fun hh => h0 (hh ▸ hpmem)
    have hplt : byteCompare (keyOfD st p) key = .lt := by
      rcases hent with hh | hh
      · exact absurd hh hpne
      · exact hh
    rw [ht] at hpw
    rw [List.pairwise_append] at hpw
    have hpre : ∀ x ∈ pre', byteCompare (keyOfD st x) key = .lt := by
      intro x hx
      have hxp : keyLt st x p := hpw.2.2 x hx p (List.mem_cons_self p rest)
      unfold keyLt at hxp
      rw [byteCompare_eq_lexCompare] at hxp hplt ⊢
      exact lexCompare_lt_trans _ _ _ hxp hplt
    rw [ht]
    exact (stopAt_through st key p rest hplt pre' 0 hpre).symm

/-- Full descent of the `find_less_than` loop: from any entry node of the
current level's chain that sits at or before the target, the loop returns
the stop node of the level-1 walk started at the head. -/
theorem findLT_descend {st : SkipState} (h : wf st) (key : List Nat) :
    ∀ level, 1 ≤ level → level ≤ MAX_HEIGHT →
      ∀ p, p ∈ chainL st level →
        (p = 0 ∨ byteCompare (keyOfD st p) key = .lt) →
        ∀ extra,
          findLTLoop st key (extra + level * (st.nodes.length + 2)) level p =
            .ok (stopAt st key 0 (storedIdx st)) := by
  intro level
  induction level with
  | zero => intro h1; omega
  | succ l ih =>
    intro hl1 hl p hp hent extra
    obtain ⟨tail, hat, hgo, hvalid, hlen⟩ := wf_chain_tail h hl1 hl
    have hchainL : chainL st (l + 1) = 0 :: tail := by
      unfold chainL; rw [hat]; rfl
    rw [hchainL] at hp
    obtain ⟨pre, rest, hsplit, hgoq⟩ := chain_suffix_of_mem hgo hp
    have hvp : validAt st p (l + 1) := hvalid p hp
    have hrest_le : rest.length ≤ st.nodes.length := by
      have := congrArg List.length hsplit
      simp only [List.length_cons, List.length_append] at this hlen
      omega
    obtain ⟨a, ha, hwalk⟩ := findLT_walk h key hl1 hl rest p hgoq hvp
    have hpw : List.Pairwise (keyLt st) tail :=
      chain_tail_pairwise h hgo hl1 hl
        (fun x hx => validAt_lt_length (hvalid x hx))
    have h0t : 0 ∉ tail := zero_not_mem_tail hgo
    by_cases hl0 : l = 0
    · -- level 1: the walk returns, and its stop node is the global one
      subst hl0
      have hbase : extra + 1 * (st.nodes.length + 2) =
          (extra + (st.nodes.length + 1 - rest.length)) + rest.length + 1 := by
        omega
      have hstored : storedIdx st = tail := by
        unfold storedIdx
        rw [hchainL]
        rfl
      have hone : ((0 : Nat) + 1 = 1) := rfl
      rw [hbase, hwalk, if_pos hone, hstored,
        stopAt_suffix_eq key hpw h0t hsplit hent]
    · -- level ≥ 2: walk, then descend into the chain below
      have hlne : ¬ (l + 1 = 1) := by omega
      have hmul : (l + 1) * (st.nodes.length + 2) =
          l * (st.nodes.length + 2) + (st.nodes.length + 2) := by ring
      have hbase : extra + (l + 1) * (st.nodes.length + 2) =
          (extra + (l + 1) * (st.nodes.length + 2) - rest.length - 1) +
            rest.length + 1 := by
        omega
      rw [hbase, hwalk]
      simp only [if_neg hlne, Nat.add_sub_cancel]
      set q := stopAt st key p rest with hq
      have hqmem : q ∈ chainL st (l + 1) := by
        rw [hchainL, hsplit]
        exact List.mem_append_right _ (stopAt_mem st key rest p)
      have hqmem' : q ∈ chainL st l := by
        have := wf_chain_subset h (by omega) hl q hqmem
        simpa using this
      have hqent : q = 0 ∨ byteCompare (keyOfD st q) key = .lt := by
        rcases stopAt_entrance st key rest p with hh | ⟨-, hh⟩
        · rw [← hq] at hh; rw [hh]; exact hent
        · rw [← hq] at hh; exact Or.inr hh
      have hfuel : extra + (l + 1) * (st.nodes.length + 2) - rest.length - 1 +
          rest.length - a =
          (extra + (l + 1) * (st.nodes.length + 2) - rest.length - 1 +
            rest.length - a - l * (st.nodes.length + 2)) +
            l * (st.nodes.length + 2) := by
        omega
      rw [hfuel]
      exact ih (by omega) (by omega) q hqmem' hqent _

/-- `find_less_than` computes the level-1 stop node on well-formed states. -/
theorem findLessThan_correct {st : SkipState} (h : wf st) (key : List Nat) :
    findLessThan st key = .ok (stopAt st key 0 (storedIdx st)) := by
  unfold findLessThan walkFuel
  obtain ⟨tail, hat, hgo, hvalid, hlen⟩ := wf_chain_tail h h.1 h.2.1
  have h0mem : 0 ∈ chainL st st.maxHeight := by
    unfold chainL; rw [hat]; simp
  have hfuel : (st.maxHeight + 1) * (st.nodes.length + 2) =
      (st.nodes.length + 2) + st.maxHeight * (st.nodes.length + 2) := by ring
  rw [hfuel]
  exact findLT_descend h key st.maxHeight h.1 h.2.1 0 h0mem (Or.inl rfl) _

/-! ### The walk of `find_last` -/

/-- One unfolding of the `find_last` loop. -/
theorem findLastLoop_step (st : SkipState) (fuel level n : Nat) :
    findLastLoop st (fuel + 1) level n =
      match nodeGetNext st n level with
      | .error e => .error e
      | .ok none =>
        if level = 1 then .ok n else findLastLoop st fuel (level - 1) n
      | .ok (some m) => findLastLoop st fuel level m := rfl

theorem findLastLoop_blocked {st : SkipState} {n level : Nat}
    (hv : validAt st n level) (hl1 : 1 ≤ level)
    (hnone : nextOf st n level = none) (fuel : Nat) :
    findLastLoop st (fuel + 1) level n =
      if level = 1 then .ok n else findLastLoop st fuel (level - 1) n := by
  rw [findLastLoop_step, nodeGetNext_ok hv hl1, hnone]

theorem findLastLoop_advance {st : SkipState} {n level m : Nat}
    (hv : validAt st n level) (hl1 : 1 ≤ level)
    (hnext : nextOf st n level = some m) (fuel : Nat) :
    findLastLoop st (fuel + 1) level n = findLastLoop st fuel level m := by
  rw [findLastLoop_step, nodeGetNext_ok hv hl1, hnext]

theorem getLastD_mem : ∀ (l : List Nat) (d : Nat), l.getLastD d ∈ d :: l
  | [], d => by simp
  | x :: l, d => by
    rw [List.getLastD_cons]
    rcases List.mem_cons.mp (getLastD_mem l x) with hh | hh
    · exact List.mem_cons.mpr (Or.inr (List.mem_cons.mpr (Or.inl hh)))
    · exact List.mem_cons.mpr (Or.inr (List.mem_cons.mpr (Or.inr hh)))

theorem getLastD_append_cons :
    ∀ (pre : List Nat) (p : Nat) (rest : List Nat) (d : Nat),
      (pre ++ p :: rest).getLastD d = rest.getLastD p
  | [], p, rest, d => by rw [List.nil_append, List.getLastD_cons]
  | x :: pre', p, rest, d => by
    rw [List.cons_append, List.getLastD_cons]
    exact getLastD_append_cons pre' p rest x

/-- Walking one level of `find_last`: run to the end of the chain, then
return (level 1) or descend. -/
theorem findLast_walk {st : SkipState} (h : wf st)
    {level : Nat} (hl1 : 1 ≤ level) (hl : level ≤ MAX_HEIGHT) :
    ∀ (rest : List Nat) (i : Nat),
      chainGo st level (rest.length + 1) (some i) = some (i :: rest) →
      validAt st i level →
      ∀ base,
        findLastLoop st (base + rest.length + 1) level i =
          if level = 1 then .ok (rest.getLastD i)
          else findLastLoop st base (level - 1) (rest.getLastD i)
  | [], i, hgo, hvi => by
    obtain ⟨rest', heq, hnext'⟩ := chainGo_shape hgo
    injection heq with h1 h2
    subst h2
    simp only [List.length_nil, Nat.add_sub_cancel] at hnext'
    have hnone : nextOf st i level = none := by
      cases hn : nextOf st i level with
      | none => rfl
      | some j => rw [hn] at hnext'; simp [chainGo] at hnext'
    intro base
    rw [show base + List.length [] + 1 = (base + List.length []) + 1 from rfl,
      findLastLoop_blocked hvi hl1 hnone]
    simp
  | j :: rest', i, hgo, hvi => by
    obtain ⟨rr, heq, hnext'⟩ := chainGo_shape hgo
    injection heq with h1 h2
    subst h2
    simp only [List.length_cons, Nat.add_sub_cancel] at hnext'
    have hnext : nextOf st i level = some j := by
      cases hn : nextOf st i level with
      | none => rw [hn, chainGo_none] at hnext'; simp at hnext'
      | some j' =>
        rw [hn] at hnext'
        obtain ⟨rest'', heq2, -⟩ := chainGo_shape hnext'
        injection heq2 with h3 h4
        rw [h3]
    rw [hnext] at hnext'
    have hvj : validAt st j level :=
      wf_link_target_valid h (validAt_lt_length hvi) hl1 hl hnext
    intro base
    rw [show base + (j :: rest').length + 1 = (base + rest'.length + 1) + 1
        from by simp only [List.length_cons]; omega,
      findLastLoop_advance hvi hl1 hnext,
      findLast_walk h hl1 hl rest' j hnext' hvj base,
      List.getLastD_cons]

/-- Full descent of the `find_last` loop. -/
theorem findLast_descend {st : SkipState} (h : wf st) :
    ∀ level, 1 ≤ level → level ≤ MAX_HEIGHT →
      ∀ p, p ∈ chainL st level →
        ∀ extra,
          findLastLoop st (extra + level * (st.nodes.length + 2)) level p =
            .ok ((storedIdx st).getLastD 0) := by
  intro level
  induction level with
  | zero => intro h1; omega
  | succ l ih =>
    intro hl1 hl p hp extra
    obtain ⟨tail, hat, hgo, hvalid, hlen⟩ := wf_chain_tail h hl1 hl
    have hchainL : chainL st (l + 1) = 0 :: tail := by
      unfold chainL; rw [hat]; rfl
    rw [hchainL] at hp
    obtain ⟨pre, rest, hsplit, hgoq⟩ := chain_suffix_of_mem hgo hp
    have hvp : validAt st p (l + 1) := hvalid p hp
    have hrest_le : rest.length ≤ st.nodes.length := by
      have := congrArg List.length hsplit
      simp only [List.length_cons, List.length_append] at this hlen
      omega
    have hwalk := findLast_walk h hl1 hl rest p hgoq hvp
    by_cases hl0 : l = 0
    · subst hl0
      have hone : ((0 : Nat) + 1 = 1) := rfl
      have hstored : storedIdx st = tail := by
        unfold storedIdx
        rw [hchainL]
        rfl
      have hbase : extra + 1 * (st.nodes.length + 2) =
          (extra + (st.nodes.length + 1 - rest.length)) + rest.length + 1 := by
        omega
      have hlast : tail.getLastD 0 = rest.getLastD p := by
        have h1 := getLastD_append_cons pre p rest 0
        rw [← hsplit, List.getLastD_cons] at h1
        exact h1
      rw [hbase, hwalk _, if_pos hone, hstored, hlast]
    · have hlne : ¬ (l + 1 = 1) := by omega
      have hmul : (l + 1) * (st.nodes.length + 2) =
          l * (st.nodes.length + 2) + (st.nodes.length + 2) := by ring
      have hbase : extra + (l + 1) * (st.nodes.length + 2) =
          (extra + (l + 1) * (st.nodes.length + 2) - rest.length - 1) +
            rest.length + 1 := by
        omega
      rw [hbase, hwalk _, if_neg hlne, Nat.add_sub_cancel]
      set q := rest.getLastD p with hq
      have hqmem : q ∈ chainL st (l + 1) := by
        rw [hchainL, hsplit]
        exact List.mem_append_right _ (getLastD_mem rest p)
      have hqmem' : q ∈ chainL st l := by
        have := wf_chain_subset h (by omega) hl q hqmem
        simpa using this
      have hfuel : extra + (l + 1) * (st.nodes.length + 2) - rest.length - 1 =
          (extra + (l + 1) * (st.nodes.length + 2) - rest.length - 1 -
            l * (st.nodes.length + 2)) + l * (st.nodes.length + 2) := by
        omega
      rw [hfuel]
      exact ih (by omega) (by omega) q hqmem' _

/-- `find_last` returns the last node of the level-1 chain on well-formed
states. -/
theorem findLast_correct {st : SkipState} (h : wf st) :
    findLast st = .ok ((storedIdx st).getLastD 0) := by
  unfold findLast walkFuel
  obtain ⟨tail, hat, -, -, -⟩ := wf_chain_tail h h.1 h.2.1
  have h0mem : 0 ∈ chainL st st.maxHeight := by
    unfold chainL; rw [hat]; simp
  have hfuel : (st.maxHeight + 1) * (st.nodes.length + 2) =
      (st.nodes.length + 2) + st.maxHeight * (st.nodes.length + 2) := by ring
  rw [hfuel]
  exact findLast_descend h st.maxHeight h.1 h.2.1 0 h0mem _

/-! ### From stop nodes to the specification clauses -/

/-- Decidable "key strictly below the target" test on node indices. -/
def belowKey (st : SkipState) (key : List Nat) (j : Nat) : Bool :=
  decide (byteCompare (keyOfD st j) key = .lt)

theorem byteCompare_swap (a b : List Nat) :
    byteCompare b a = (byteCompare a b).swap := by
  rw [byteCompare_eq_lexCompare, byteCompare_eq_lexCompare]
  exact lexCompare_swap a b

theorem byteCompare_self (a : List Nat) : byteCompare a a = .eq := by
  rw [byteCompare_eq_lexCompare]; exact lexCompare_self a

/-- The stop node is the last node of the below-target prefix. -/
theorem stopAt_eq_getLastD_takeWhile (st : SkipState) (key : List Nat) :
    ∀ (l : List Nat) (i : Nat),
      stopAt st key i l = (l.takeWhile (belowKey st key)).getLastD i
  | [], i => by simp [stopAt]
  | j :: rest, i => by
    rw [List.takeWhile_cons]
    by_cases hj : byteCompare (keyOfD st j) key = .lt
    · rw [if_pos (by simp [belowKey, hj])]
      simp only [stopAt, if_pos hj, List.getLastD_cons]
      exact stopAt_eq_getLastD_takeWhile st key rest j
    · rw [if_neg (by simp [belowKey, hj])]
      simp only [stopAt, if_neg hj]
      rfl

theorem getLastD_mem_of_ne_nil :
    ∀ {l : List Nat} (d : Nat), l ≠ [] → l.getLastD d ∈ l
  | [], _, hne => absurd rfl hne
  | x :: l, d, _ => by
    rw [List.getLastD_cons]
    exact getLastD_mem l x

/-- In a sorted list every element is the last one or strictly before it. -/
theorem pairwise_getLastD {st : SkipState} :
    ∀ (l : List Nat) (d : Nat), l.Pairwise (keyLt st) →
      ∀ x ∈ l, x = l.getLastD d ∨ keyLt st x (l.getLastD d)
  | [], _, _, x, hx => by simp at hx
  | x0 :: l', d, hpw, x, hx => by
    rw [List.getLastD_cons]
    rw [List.pairwise_cons] at hpw
    rcases List.mem_cons.mp hx with rfl | hx'
    · cases l' with
      | nil => left; rfl
      | cons y l'' =>
        right
        exact hpw.1 _ (getLastD_mem_of_ne_nil x (by simp))
    · exact pairwise_getLastD l' x0 hpw.2 x hx'

/-- In a sorted list, everything below the target belongs to the
below-target prefix. -/
theorem mem_takeWhile_of_pairwise {st : SkipState} {key : List Nat} :
    ∀ {l : List Nat}, l.Pairwise (keyLt st) →
      ∀ x ∈ l, byteCompare (keyOfD st x) key = .lt →
        x ∈ l.takeWhile (belowKey st key)
  | [], _, x, hx, _ => by simp at hx
  | j :: rest, hpw, x, hx, hxlt => by
    rw [List.pairwise_cons] at hpw
    have hj : byteCompare (keyOfD st j) key = .lt := by
      rcases List.mem_cons.mp hx with rfl | hx'
      · exact hxlt
      · have hjx : keyLt st j x := hpw.1 x hx'
        unfold keyLt at hjx
        rw [byteCompare_eq_lexCompare] at hjx hxlt ⊢
        exact lexCompare_lt_trans _ _ _ hjx hxlt
    rw [List.takeWhile_cons, if_pos (by simp [belowKey, hj])]
    rcases List.mem_cons.mp hx with rfl | hx'
    · exact List.mem_cons_self x _
    · exact List.mem_cons_of_mem j (mem_takeWhile_of_pairwise hpw.2 x hx' hxlt)

/-- The level-1 chain data used in the claim statements. -/
theorem wf_stored {st : SkipState} (h : wf st) :
    chainL st 1 = 0 :: storedIdx st ∧
    List.Pairwise (keyLt st) (storedIdx st) ∧ 0 ∉ storedIdx st ∧
    ∀ x ∈ storedIdx st, x < st.nodes.length := by
  have h1le : (1 : Nat) ≤ MAX_HEIGHT := by unfold MAX_HEIGHT; omega
  obtain ⟨tail, hat, hgo, hvalid, -⟩ := wf_chain_tail h (Nat.le_refl 1) h1le
  have hchainL : chainL st 1 = 0 :: tail := by
    unfold chainL; rw [hat]; rfl
  have hstored : storedIdx st = tail := by
    unfold storedIdx; rw [hchainL]; rfl
  rw [hstored, hchainL]
  refine ⟨rfl, ?_, zero_not_mem_tail hgo, ?_⟩
  · exact chain_tail_pairwise h hgo (Nat.le_refl 1) h1le
      (fun x hx => validAt_lt_length (hvalid x hx))
  · exact fun x hx =>
      validAt_lt_length (hvalid x (List.mem_cons_of_mem 0 hx))

/-- `find_less_than`, expressed through the claim's clauses. -/
theorem findLessThan_spec {st : SkipState} (h : wf st) (key : List Nat) :
    ((∀ s ∈ storedKeys st, byteCompare key s ≠ .gt) →
      findLessThan st key = .ok 0) ∧
    ((∃ s ∈ storedKeys st, byteCompare key s = .gt) →
      ∃ q, findLessThan st key = .ok q ∧ q ∈ storedIdx st ∧
        byteCompare (keyOfD st q) key = .lt ∧
        ∀ s ∈ storedKeys st, byteCompare s key = .lt →
          byteCompare s (keyOfD st q) ≠ .gt) := by
  obtain ⟨-, hpw, h0, -⟩ := wf_stored h
  have hfound := findLessThan_correct h key
  constructor
  · -- the target is at or below every stored key: stop at the sentinel
    intro hA
    rw [hfound]
    cases hT : storedIdx st with
    | nil => simp [stopAt]
    | cons j rest =>
      have hjmem : keyOfD st j ∈ storedKeys st := by
        unfold storedKeys
        rw [hT]
        exact List.mem_map_of_mem _ (List.mem_cons_self j rest)
      have hnj : ¬ byteCompare (keyOfD st j) key = .lt := by
        intro hlt
        refine hA (keyOfD st j) hjmem ?_
        rw [byteCompare_swap, hlt]
        rfl
      simp only [stopAt, if_neg hnj]
  · -- some stored key is below the target: stop at the largest such node
    intro hB
    obtain ⟨s, hsmem, hsgt⟩ := hB
    obtain ⟨x, hxmem, rfl⟩ := List.mem_map.mp hsmem
    have hxlt : byteCompare (keyOfD st x) key = .lt := by
      rw [byteCompare_swap] at hsgt
      cases hcmp : byteCompare (keyOfD st x) key <;>
        rw [hcmp] at hsgt <;> first | rfl | simp [Ordering.swap] at hsgt
    have hxtw : x ∈ (storedIdx st).takeWhile (belowKey st key) :=
      mem_takeWhile_of_pairwise hpw x hxmem hxlt
    have htwne : (storedIdx st).takeWhile (belowKey st key) ≠ [] := by
      intro hh; rw [hh] at hxtw; simp at hxtw
    set q := stopAt st key 0 (storedIdx st) with hqdef
    have hq : q = ((storedIdx st).takeWhile (belowKey st key)).getLastD 0 :=
      stopAt_eq_getLastD_takeWhile st key (storedIdx st) 0
    have hqtw : q ∈ (storedIdx st).takeWhile (belowKey st key) := by
      rw [hq]; exact getLastD_mem_of_ne_nil 0 htwne
    have hqmem : q ∈ storedIdx st := (List.takeWhile_sublist _).mem hqtw
    have hqlt : byteCompare (keyOfD st q) key = .lt := by
      have := List.mem_takeWhile_imp hqtw
      unfold belowKey at this
      exact of_decide_eq_true this
    refine ⟨q, hfound, hqmem, hqlt, ?_⟩
    intro s hsmem' hslt
    obtain ⟨y, hymem, rfl⟩ := List.mem_map.mp hsmem'
    have hytw : y ∈ (storedIdx st).takeWhile (belowKey st key) :=
      mem_takeWhile_of_pairwise hpw y hymem hslt
    have hpwtw : ((storedIdx st).takeWhile (belowKey st key)).Pairwise
        (keyLt st) := hpw.sublist (List.takeWhile_sublist _)
    rcases pairwise_getLastD _ 0 hpwtw y hytw with hh | hh
    · rw [hh, ← hq, byteCompare_self]
      simp
    · rw [← hq] at hh
      unfold keyLt at hh
      rw [hh]
      simp
  
/-- `find_last`, expressed through the claim's clauses. -/
theorem findLast_spec {st : SkipState} (h : wf st) :
    (storedIdx st = [] → findLast st = .ok 0) ∧
    (storedIdx st ≠ [] →
      ∃ m, findLast st = .ok m ∧ m ∈ storedIdx st ∧
        ∀ s ∈ storedKeys st, byteCompare s (keyOfD st m) ≠ .gt) := by
  obtain ⟨-, hpw, -, -⟩ := wf_stored h
  have hfound := findLast_correct h
  constructor
  · intro hT
    rw [hfound, hT]
    rfl
  · intro hT
    set m := (storedIdx st).getLastD 0 with hmdef
    refine ⟨m, hfound, getLastD_mem_of_ne_nil 0 hT, ?_⟩
    intro s hsmem hcontra
    obtain ⟨y, hymem, rfl⟩ := List.mem_map.mp hsmem
    rcases pairwise_getLastD _ 0 hpw y hymem with hh | hh
    · rw [hh, ← hmdef, byteCompare_self] at hcontra
      simp at hcontra
    · rw [← hmdef] at hh
      unfold keyLt at hh
      rw [hh] at hcontra
      simp at hcontra

/-! ## Concrete states used by the claim theorems

These mirror how the repository's own tests build skiplists: nodes are
allocated and linked by hand (`test_find_greater_or_equal` does exactly
this, storing successor pointers directly), because — as the claim theorems
below show — `SkipList::new` itself traps and `insert` can never
complete. -/

/-- The hand-built empty table: a head sentinel whose successors have all
been stored as null, the shape the source's tests presuppose. -/
def stEmpty : SkipState :=
  { nodes := [{ key := [], value := [], height := MAX_HEIGHT,
                next := List.replicate MAX_HEIGHT none }],
    maxHeight := 1 }

/-- Head sentinel plus one node holding key `[5]`. -/
def stOne : SkipState :=
  { nodes := [{ key := [], value := [], height := MAX_HEIGHT,
                next := (List.replicate MAX_HEIGHT none).set 0 (some 1) },
              { key := [5], value := [], height := 1, next := [none] }],
    maxHeight := 1 }

/-- Head sentinel plus nodes holding keys `[5]` and `[7]`. -/
def stTwo : SkipState :=
  { nodes := [{ key := [], value := [], height := MAX_HEIGHT,
                next := (List.replicate MAX_HEIGHT none).set 0 (some 1) },
              { key := [5], value := [], height := 1, next := [some 2] },
              { key := [7], value := [], height := 1, next := [none] }],
    maxHeight := 1 }

/-- Head sentinel plus nodes holding keys `[1, 2]` and `[1, 3]`. -/
def stEq : SkipState :=
  { nodes := [{ key := [], value := [], height := MAX_HEIGHT,
                next := (List.replicate MAX_HEIGHT none).set 0 (some 1) },
              { key := [1, 2], value := [], height := 1, next := [some 2] },
              { key := [1, 3], value := [], height := 1, next := [none] }],
    maxHeight := 1 }

/-! ## Claim theorems -/

/-- C1: the claimed property — that a single writer can insert any sequence
of distinct keys and afterwards read them back in order along level 1 — is
unreachable.  `SkipList::new` itself panics: `alloc_node(MAX_HEIGHT)` for
the head computes the line-70 split point `10 - 96`, which underflows in
debug and makes `split_at_mut` panic in release, so no skiplist is ever
constructed to insert into.  Even on a hand-built empty head (the tests'
idiom, with successors stored as null), the very first insertion crashes:
`find_greater_or_equal` returns the null end-of-chain pointer and `insert`'s
duplicate probe dereferences it with no null check. -/
theorem claim1_skiplist_new_traps :
    skipListNewRun 4096 = .error Panic.subtractOverflow ∧
    insert stEmpty [1] [9] (fun _ => 1) = (stEmpty, some Panic.nullDeref) := by
  decide

/-- C2: the claimed walk/return contract of `find_greater_or_equal` fails on
equal keys.  `key_is_less_than(key, next)` blocks only when
`key < next.key`, so the walk also advances when the keys are equal: with
`[1,2]` stored at node 1 (successor node 2 holding `[1,3]`), searching for
`[1,2]` steps past the equal node and returns node 2 — the first key
strictly greater — instead of the stored equal node the claim requires. -/
theorem claim2_find_greater_or_equal_skips_equal :
    findGreaterOrEqual stEq [1, 2] (List.replicate MAX_HEIGHT none) =
      .ok (some 2, (List.replicate MAX_HEIGHT none).set 0 (some 1)) ∧
    keyOfD stEq 1 = [1, 2] ∧ keyOfD stEq 2 = [1, 3] := by
  decide

/-- C3: inserting an already-present key is not rejected as a duplicate.
Because the search steps past the equal node (C2), the `invarint!` probe
examines the strict successor: with key `[5]` stored and followed by `[7]`,
the probe passes and the call proceeds (dying later in `alloc_node`'s size
arithmetic, not in any duplicate check); with the duplicate maximal, the
probe dereferences the null successor and crashes.  In neither case does the
model produce `Panic.duplicateKey`. -/
theorem claim3_duplicate_insert_not_rejected :
    insert stTwo [5] [9] (fun _ => 1) = (stTwo, some Panic.subtractOverflow) ∧
    insert stOne [5] [9] (fun _ => 1) = (stOne, some Panic.nullDeref) ∧
    keyOfD stTwo 1 = [5] ∧ keyOfD stOne 1 = [5] := by
  decide

/-- C4: `alloc_bytes` performs no capacity check and cannot fail: on an
arena of capacity 2, allocating 3 bytes succeeds (returns offset 0) and
leaves the allocation offset at 3, beyond the capacity — the claimed
`OutOfSpace` failure and the claimed `offset ≤ capacity` invariant are both
violated. -/
theorem claim4_alloc_bytes_no_capacity_check :
    allocBytes (arenaNew 2) [1, 2, 3] =
      (0, { offset := 3, mem := [1, 2] }) ∧
    (arenaNew 2).cap = 2 ∧ 2 < 3 := by
  decide

/-- C5: `alloc_node`'s region size `MAX_NODE_SIZE - (MAX_HEIGHT - height) *
ptr_size` is computed from `MAX_NODE_SIZE = 10`: for every height up to 10
(including height 4, which the repository's own `test_alloc_nodes` uses) the
subtraction underflows and debug builds trap; at the only surviving heights
the region is 2 resp. 10 bytes, far below the claimed "header plus `height`
successor slots". -/
theorem claim5_alloc_node_size_underflow :
    usedNodeSize 4 = .error Panic.subtractOverflow ∧
    usedNodeSize 1 = .error Panic.subtractOverflow ∧
    usedNodeSize 10 = .error Panic.subtractOverflow ∧
    usedNodeSize 11 = .ok 2 ∧ usedNodeSize 12 = .ok 10 := by
  decide

/-- C6: `rand_height` is not bounded strictly below `MAX_HEIGHT`: when
eleven consecutive samples are divisible by the branching factor the height
reaches 12 = `MAX_HEIGHT` exactly, contradicting the claim (and the
function's own doc comment and `test_rand_height`). -/
theorem claim6_rand_height_reaches_max :
    randHeight (fun _ => 0) = 12 ∧ MAX_HEIGHT = 12 := by
  decide

/-- C7: no insert ever reaches the splice, and the splice itself is wrong.
Inserting `[6]` between `[5]` and `[7]` with sampled height 11 (the sampler
first succeeds ten times) raises `max_height` to 11 and then dies inside
`Node::new`: `alloc_node(11)` traps at the line-70 split point `2 - 88`
before any node exists — so the claimed per-level linking never happens for
any insert (heights up to 10 trap at line 62 instead).  Moreover the splice
loop as written runs `for i in 0..height`, passing the 0-based `i` straight
to the 1-based `get_next`/`set_next`: had it ever been reached, its first
iteration would compute `next_nodes[0 - 1]` and trap before linking any
level, as the second conjunct shows on the loop itself. -/
theorem claim7_splice_never_reached_level_zero :
    insert stTwo [6] [9] (fun i => if i < 10 then 0 else 1) =
      ({ nodes := stTwo.nodes, maxHeight := 11 }, some Panic.subtractOverflow) ∧
    spliceGo 3 ((List.replicate MAX_HEIGHT none).set 0 (some 1)) 11 0 stTwo =
      (stTwo, some Panic.subtractOverflow) := by
  decide

/-- C8: on every well-formed skiplist state, `find_less_than(key)` returns
the head sentinel when the key is at or below every stored key (in
particular on an empty table), and otherwise the node holding the largest
stored key strictly below the search key; `find_last()` returns the head
sentinel on an empty table and otherwise the node holding the maximum stored
key. -/
theorem claim8_find_less_than_find_last (st : SkipState) (key : List Nat)
    (h : wf st) :
    ((∀ s ∈ storedKeys st, byteCompare key s ≠ .gt) →
      findLessThan st key = .ok 0) ∧
    ((∃ s ∈ storedKeys st, byteCompare key s = .gt) →
      ∃ q, findLessThan st key = .ok q ∧ q ∈ storedIdx st ∧
        byteCompare (keyOfD st q) key = .lt ∧
        ∀ s ∈ storedKeys st, byteCompare s key = .lt →
          byteCompare s (keyOfD st q) ≠ .gt) ∧
    (storedIdx st = [] → findLast st = .ok 0) ∧
    (storedIdx st ≠ [] →
      ∃ m, findLast st = .ok m ∧ m ∈ storedIdx st ∧
        ∀ s ∈ storedKeys st, byteCompare s (keyOfD st m) ≠ .gt) :=
  ⟨(findLessThan_spec h key).1, (findLessThan_spec h key).2,
   (findLast_spec h).1, (findLast_spec h).2⟩

/-- Witness for C8: on the two-key table `{[5], [7]}` a search key `[1]`
at or below everything lands on the head sentinel, and on the empty table
`find_last` returns the head sentinel. -/
theorem claim8_witness :
    findLessThan stTwo [1] = .ok 0 ∧ findLast stEmpty = .ok 0 := by
  have h2 := claim8_find_less_than_find_last stTwo [1] (by decide)
  have h1 := claim8_find_less_than_find_last stEmpty [0] (by decide)
  exact ⟨h2.1 (by decide), h1.2.2.1 (by decide)⟩

/-- C9: `Node::new` cannot round-trip its payloads because `alloc_node`'s
size arithmetic traps for any height up to 10 before the payload bytes are
even copied; the byte-copy/read pair itself is sound, as the concrete
`alloc_bytes`/`get` round trip shows. -/
theorem claim9_node_new_alloc_panics :
    nodeNewArena [1] [2] 1 (arenaNew 100) = .error Panic.subtractOverflow ∧
    nodeNewArena [1] [2] 4 (arenaNew 100) = .error Panic.subtractOverflow ∧
    (let r := allocBytes (arenaNew 10) [7, 8]
     arenaGet r.2 r.1 2 = .ok [7, 8]) := by
  decide

/-- C10: `Slice`'s indexing panics exactly when the index exceeds the size,
so the boundary index `i = size` is accepted and reads the byte one past the
`size`-byte view. -/
theorem claim10_slice_index_boundary (s : SliceM) (i : Nat) :
    (s.index i = .error Panic.outOfRange ↔ s.size < i) ∧
    (s.size < s.data.length →
      s.index s.size = .ok (s.data.getD s.size 0) ∧
        s.toSliceView.length = s.size) := by
  constructor
  · unfold SliceM.index
    by_cases hgt : i > s.size
    · simp [hgt]
    · rw [if_neg hgt]
      constructor
      · intro hh
        cases hg : s.data.get? i with
        | none => rw [hg] at hh; simp at hh
        | some b => rw [hg] at hh; simp at hh
      · intro hh; omega
  · intro hlen
    have hg : s.data.get? s.size = some (s.data.getD s.size 0) := by
      rw [List.getD_eq_getElem?_getD, List.get?_eq_getElem?]
      cases hx : s.data[s.size]? with
      | none => rw [List.getElem?_eq_none_iff] at hx; omega
      | some b => simp [hx]
    constructor
    · unfold SliceM.index
      rw [if_neg (by omega), hg]
    · unfold SliceM.toSliceView
      rw [List.length_take]
      omega

/-- Witness for C10: on a slice of size 2 over the backing bytes
`[10, 20, 30]`, index 2 — one past the view `[10, 20]` — is accepted and
yields the out-of-view byte 30. -/
theorem claim10_witness :
    SliceM.index { data := [10, 20, 30], size := 2 } 2 = .ok 30 ∧
    SliceM.toSliceView { data := [10, 20, 30], size := 2 } = [10, 20] ∧
    ¬ SliceM.index { data := [10, 20, 30], size := 2 } 2 =
        .error Panic.outOfRange := by
  have h := claim10_slice_index_boundary { data := [10, 20, 30], size := 2 } 2
  have h2 := h.2 (by decide)
  refine ⟨by simpa using h2.1, by decide, ?_⟩
  rw [h.1]
  decide

end TinyDB
